import Mathlib

/-!
# Verification of the Botan XMSS private key subsystem

Shallow embedding of `src/lib/pubkey/xmss/xmss_privatekey.cpp` (tree hash
engine, private key lifecycle) and `src/lib/x509/key_constraint.cpp`
(key-usage compatibility), together with proofs of the specified
properties.

Machine integers are modelled as `Nat`; overflow is discussed at each
definition where it matters.  Fallible constructors return `Except`.
-/

set_option maxHeartbeats 1000000

namespace BotanXMSS

/-! ## Address

Modelled from the spec: the file `xmss_address.h` is not under `src/`.
Per spec §3/§4.1, an Address is a pure value type with fields
`{type, tree_height, tree_index, ots_address, ltree_address, extra
sub-indices}`, mutated in place as a cursor, with named per-type set
operations (spec §9: "set-for-ots-address, set-for-ltree-address,
set-for-hash-tree-address").  Selecting the address type re-initializes
the per-type sub-index fields (each type owns its own sub-fields; a
cursor switching type starts from a clean per-type state).  The fields
`layer_addr` and `tree_addr` are the persistent "extra sub-indices"
never touched by the code under `src/`. -/

inductive AddrType : Type
  | OTS_Hash_Address : AddrType
  | LTree_Address : AddrType
  | Hash_Tree_Address : AddrType
deriving DecidableEq

structure XMSS_Address : Type where
  layer_addr : Nat := 0
  tree_addr : Nat := 0
  typ : AddrType := AddrType.OTS_Hash_Address
  /-- per-type sub-field: `ots_address` (OTS) / `ltree_address` (LTree). -/
  word16 : Nat := 0
  /-- per-type sub-field: `tree_height` (Hash_Tree) / chain address (OTS). -/
  word20 : Nat := 0
  /-- per-type sub-field: `tree_index` (Hash_Tree) / hash address (OTS). -/
  word24 : Nat := 0
  keyAndMask : Nat := 0
deriving DecidableEq

namespace XMSS_Address

/-- Modelled from the spec: selecting the type resets the per-type
sub-index fields, keeping only the persistent part of the cursor. -/
def set_type (a : XMSS_Address) (t : AddrType) : XMSS_Address :=
  ⟨a.layer_addr, a.tree_addr, t, 0, 0, 0, 0⟩

def set_ots_address (a : XMSS_Address) (i : Nat) : XMSS_Address :=
  { a with word16 := i }

def set_ltree_address (a : XMSS_Address) (i : Nat) : XMSS_Address :=
  { a with word16 := i }

def set_tree_height (a : XMSS_Address) (h : Nat) : XMSS_Address :=
  { a with word20 := h }

def set_tree_index (a : XMSS_Address) (i : Nat) : XMSS_Address :=
  { a with word24 := i }

def get_tree_height (a : XMSS_Address) : Nat := a.word20

def get_tree_index (a : XMSS_Address) : Nat := a.word24

end XMSS_Address

/-- Result of `(adrs.get_tree_index() - 1) >> 1` (parent index of a pair
of sibling nodes).  In the C++ the subtraction is done at the unsigned
type of `get_tree_index`; every reachable evaluation has `x ≥ 1`, where
all unsigned widths and `Nat` truncated subtraction agree, so the `Nat`
reading is faithful. -/
def sub1shr1 (x : Nat) : Nat := (x - 1) / 2

/-- Pointwise update of a totalized array.  The C++ uses
`std::vector` storage of a fixed size; the bounds-compliance of every
access is established separately (claim C7). -/
def upd {α : Type} (f : Nat → α) (i : Nat) (x : α) : Nat → α :=
  fun j => if j = i then x else f j

@[simp] theorem upd_same {α : Type} (f : Nat → α) (i : Nat) (x : α) :
    upd f i x i = x := by simp [upd]

@[simp] theorem upd_other {α : Type} (f : Nat → α) (i j : Nat) (x : α)
    (h : j ≠ i) : upd f i x j = f j := by simp [upd, h]

/-! ## Hash collaborators

The one-time key derivation (`XMSS_WOTS_PrivateKey::generate_public_key`
plus `XMSS_Common_Ops::create_l_tree`) and the node combination
(`XMSS_Common_Ops::randomize_tree_hash`) are external collaborators whose
sources are not under `src/`; per spec §1/§2 they are pure functions of
the seeds (folded into this structure as fixed data) and the address
cursor at the call. -/
structure XMSS_Ops (Node : Type) : Type where
  /-- all-zero node of `element_size` bytes (vector default value). -/
  dflt : Node
  /-- leaf derivation: OTS public key generated at the OTS-typed address,
  reduced by `create_l_tree` at the LTree-typed address. -/
  ltree_leaf : XMSS_Address → XMSS_Address → Node
  /-- `randomize_tree_hash(left, right, adrs)` with the public seed fixed. -/
  randomize_tree_hash : Node → Node → XMSS_Address → Node

/-! ## Sequential tree hash (`XMSS_PrivateKey::tree_hash_subtree`) -/

/-- Mutable state of `tree_hash_subtree`: the node stack `nodes`, the
stack levels `node_levels`, the current stack level `level` and the
address cursor `adrs`. -/
structure THState (Node : Type) : Type where
  nodes : Nat → Node
  node_levels : Nat → Nat
  level : Nat
  adrs : XMSS_Address

/-- The inner `while(level > 0 && node_levels[level] == node_levels[level-1])`
loop of `tree_hash_subtree` (src lines 256-269), with the loop counter
`lvl` (the value of `level`) made the structural recursion argument. -/
def combineLoop {Node : Type} (ops : XMSS_Ops Node) :
    Nat → (Nat → Node) → (Nat → Nat) → XMSS_Address → THState Node
  | 0, ns, lv, a => ⟨ns, lv, 0, a⟩
  | l + 1, ns, lv, a =>
    if lv (l + 1) = lv l then
      let a1 := a.set_tree_index (sub1shr1 a.get_tree_index)
      let n1 := ops.randomize_tree_hash (ns l) (ns (l + 1)) a1
      combineLoop ops l (upd ns l n1) (upd lv l (lv l + 1))
        (a1.set_tree_height (a1.get_tree_height + 1))
    else ⟨ns, lv, l + 1, a⟩

/-- One iteration of the leaf loop of `tree_hash_subtree`
(src lines 236-271) for leaf index `i`. -/
def leafStep {Node : Type} (ops : XMSS_Ops Node) (s : THState Node)
    (i : Nat) : THState Node :=
  let a1 := (s.adrs.set_type AddrType.OTS_Hash_Address).set_ots_address i
  let a2 := (a1.set_type AddrType.LTree_Address).set_ltree_address i
  let ns1 := upd s.nodes s.level (ops.ltree_leaf a1 a2)
  let lv1 := upd s.node_levels s.level 0
  let a3 := ((a2.set_type AddrType.Hash_Tree_Address).set_tree_height 0).set_tree_index i
  let s2 := combineLoop ops s.level ns1 lv1 a3
  { s2 with level := s2.level + 1 }

/-- The leaf loop of `tree_hash_subtree`, processing `cnt` leaves
starting at leaf index `i`. -/
def subtreeLoop {Node : Type} (ops : XMSS_Ops Node) :
    THState Node → Nat → Nat → THState Node
  | s, _, 0 => s
  | s, i, c + 1 => subtreeLoop ops (leafStep ops s i) (i + 1) c

/-- Initial state of a `tree_hash_subtree` run: zeroed `nodes` and
`node_levels` vectors, `level = 0`, the caller's address cursor. -/
def initState {Node : Type} (ops : XMSS_Ops Node) (adrs : XMSS_Address) :
    THState Node :=
  ⟨fun _ => ops.dflt, fun _ => 0, 0, adrs⟩

/-- Full run of `XMSS_PrivateKey::tree_hash_subtree` (src lines 213-273):
final mutable state after processing `2 ^ target_node_height` leaves from
`start_idx`. -/
def tree_hash_subtree_run {Node : Type} (ops : XMSS_Ops Node)
    (start_idx target_node_height : Nat) (adrs : XMSS_Address) :
    THState Node :=
  subtreeLoop ops (initState ops adrs) start_idx (2 ^ target_node_height)

/-- Result of `XMSS_PrivateKey::tree_hash_subtree`: `nodes[level - 1]`
of the final state (src line 272). -/
def tree_hash_subtree {Node : Type} (ops : XMSS_Ops Node)
    (start_idx target_node_height : Nat) (adrs : XMSS_Address) : Node :=
  let sf := tree_hash_subtree_run ops start_idx target_node_height adrs
  sf.nodes (sf.level - 1)

/-! ## Parallel tree hash (`XMSS_PrivateKey::tree_hash`)

The threaded path (src lines 97-210).  Each spawned subtree task owns its
own address copy and hash instance and writes a disjoint slot, and every
pass joins all threads before the next; the joined computation is the
deterministic function below.  `split_level` is the value
`min(target_node_height, ceil(log2(hardware_concurrency())))` computed at
src lines 99-104; it is kept as an explicit parameter (spec §8 "forced
split level"), and always satisfies `split_level ≤ target_node_height`. -/

/-- One joined round of the `while(level-- > 1)` loop (src lines 163-198)
at level `L`: combine node pairs `(2i, 2i+1)` for `i < 2^L`, reading the
pre-pass node values (the `ro_nodes` snapshot) and the pre-pass address
of index `2i+1` (written only at iteration `2i+1 > i` of the same pass). -/
def onePass {Node : Type} (ops : XMSS_Ops Node) (target L : Nat)
    (st : (Nat → Node) × (Nat → XMSS_Address)) :
    (Nat → Node) × (Nat → XMSS_Address) :=
  let newAddr : Nat → XMSS_Address := fun i =>
    ((st.2 i).set_tree_height (target - (L + 1))).set_tree_index
      (sub1shr1 (st.2 (2 * i + 1)).get_tree_index)
  (fun i => if i < 2 ^ L then
      ops.randomize_tree_hash (st.1 (2 * i)) (st.1 (2 * i + 1)) (newAddr i)
    else st.1 i,
   fun i => if i < 2 ^ L then newAddr i else st.2 i)

/-- The `while(level-- > 1)` loop: with entry value `lvl` the body runs
for levels `lvl - 1, lvl - 2, ..., 1`. -/
def passLoop {Node : Type} (ops : XMSS_Ops Node) (target : Nat) :
    Nat → (Nat → Node) × (Nat → XMSS_Address) →
    (Nat → Node) × (Nat → XMSS_Address)
  | 0, st => st
  | 1, st => st
  | l + 2, st => passLoop ops target (l + 1) (onePass ops target (l + 1) st)

/-- `XMSS_PrivateKey::tree_hash` (src lines 89-211) with the split level
explicit.  `split_level = 0` falls back to the purely sequential run
(src lines 107-112); otherwise `2^split_level` subtree tasks of height
`target_node_height - split_level` run (each over its own copy of
`adrs`), their roots are combined level by level, and the final root
combination happens on the calling thread (src lines 200-209). -/
def tree_hash_par {Node : Type} (ops : XMSS_Ops Node)
    (start_idx target_node_height split_level : Nat)
    (adrs : XMSS_Address) : Node :=
  if split_level = 0 then
    tree_hash_subtree ops start_idx target_node_height adrs
  else
    let subtrees := 2 ^ split_level
    let offs := 2 ^ target_node_height / subtrees
    let runs : Nat → THState Node := fun i =>
      tree_hash_subtree_run ops (start_idx + i * offs)
        (target_node_height - split_level) adrs
    let ns0 : Nat → Node := fun i =>
      if i < subtrees then (runs i).nodes ((runs i).level - 1) else ops.dflt
    let as0 : Nat → XMSS_Address := fun i =>
      if i < subtrees then (runs i).adrs else adrs
    let st := passLoop ops target_node_height split_level (ns0, as0)
    let a0 := ((st.2 0).set_tree_height (target_node_height - 1)).set_tree_index
      (sub1shr1 (st.2 1).get_tree_index)
    ops.randomize_tree_hash (st.1 0) (st.1 1) a0

/-! ## Errors (`Integrity_Failure`, `Internal_Error`, `Provider_Not_Found`) -/

inductive Botan_Error : Type
  | integrity_failure : String → Botan_Error
  | internal_error : String → Botan_Error
  | provider_not_found : String → String → Botan_Error
deriving DecidableEq

/-- Message of the `BOTAN_ASSERT` at src lines 94-95. -/
def tree_hash_align_msg : String :=
  "Start index must be divisible by 2^\x7btarget node height\x7d."

/-- Message of the `BOTAN_ASSERT` at src lines 121-123. -/
def tree_hash_divide_msg : String :=
  "Number of worker threads in tree_hash need to divide range of calculated nodes."

/-- `XMSS_PrivateKey::tree_hash` including its `BOTAN_ASSERT` gates: the
alignment precondition (src lines 94-95, checked before any work) and
the worker-range divisibility assert of the threaded branch (src lines
121-123), both fatal `Internal_Error`s. -/
def tree_hash {Node : Type} (ops : XMSS_Ops Node)
    (start_idx target_node_height split_level : Nat)
    (adrs : XMSS_Address) : Except Botan_Error Node :=
  if start_idx % 2 ^ target_node_height ≠ 0 then
    Except.error (Botan_Error.internal_error tree_hash_align_msg)
  else if split_level ≠ 0 ∧ 2 ^ target_node_height % 2 ^ split_level ≠ 0 then
    Except.error (Botan_Error.internal_error tree_hash_divide_msg)
  else
    Except.ok (tree_hash_par ops start_idx target_node_height split_level adrs)

/-! ## Specification-side Merkle node

Written from the spec's words (§4.2): the Merkle node covering the
half-open leaf range `[start, start + 2^t)`, built from OTS leaves by
pairwise combination, with the parent tree index of a pair of height-`t`
children covering `[start, start + 2^(t+1))` being `start / 2^(t+1)`. -/

/-- Leaf value at index `i`: OTS public key under the OTS-typed cursor,
reduced under the LTree-typed cursor. -/
def leafVal {Node : Type} (ops : XMSS_Ops Node) (base : XMSS_Address)
    (i : Nat) : Node :=
  ops.ltree_leaf ((base.set_type AddrType.OTS_Hash_Address).set_ots_address i)
    ((base.set_type AddrType.LTree_Address).set_ltree_address i)

/-- Hash-tree-typed address with the given `tree_height` and `tree_index`. -/
def htAddr (base : XMSS_Address) (h i : Nat) : XMSS_Address :=
  ((base.set_type AddrType.Hash_Tree_Address).set_tree_height h).set_tree_index i

/-- Merkle node of height `t` covering leaves `[start, start + 2^t)`. -/
def merkle {Node : Type} (ops : XMSS_Ops Node) (base : XMSS_Address) :
    Nat → Nat → Node
  | 0, start => leafVal ops base start
  | t + 1, start =>
    ops.randomize_tree_hash (merkle ops base t start)
      (merkle ops base t (start + 2 ^ t))
      (htAddr base t (start / 2 ^ (t + 1)))

/-! ## Proof-support predicates for the tree hash engine -/

/-- Agreement of two engine states on everything the remaining
computation can read: same `level`, same cursor, same stack content at
positions up to (exclusive) `level`. -/
def EqLt {Node : Type} (s s' : THState Node) : Prop :=
  s.level = s'.level ∧ s.adrs = s'.adrs ∧
  ∀ x, x < s.level → s.nodes x = s'.nodes x ∧ s.node_levels x = s'.node_levels x

/-- Agreement up to and including position `level` (the pending node). -/
def EqLe {Node : Type} (s s' : THState Node) : Prop :=
  s.level = s'.level ∧ s.adrs = s'.adrs ∧
  ∀ x, x ≤ s.level → s.nodes x = s'.nodes x ∧ s.node_levels x = s'.node_levels x

/-- Equality of the persistent (never written) address fields. -/
def persistEq (a b : XMSS_Address) : Prop :=
  a.layer_addr = b.layer_addr ∧ a.tree_addr = b.tree_addr

/-- Stack levels strictly decrease from the bottom of the stack up. -/
def StrictDesc (lv : Nat → Nat) (k : Nat) : Prop :=
  ∀ x y, x < y → y < k → lv y < lv x

/-- Total number of leaves accounted for by the stack entries below `k`. -/
def stackWeight (lv : Nat → Nat) (k : Nat) : Nat :=
  Finset.sum (Finset.range k) (fun x => 2 ^ lv x)

/-- The `level++` at the end of a leaf iteration (src line 270). -/
def bump {Node : Type} (r : THState Node) : THState Node :=
  { r with level := r.level + 1 }

/-- Reference result of processing one aligned block of `2 ^ j` leaves
from state `s`: push the Merkle node of the block at the current level
with stack level `j` and cursor at the block root, run the combine
cascade against the existing stack, and step the level. -/
def blockResult {Node : Type} (ops : XMSS_Ops Node) (s : THState Node)
    (j start : Nat) : THState Node :=
  bump (combineLoop ops s.level
    (upd s.nodes s.level (merkle ops s.adrs j start))
    (upd s.node_levels s.level j)
    (htAddr s.adrs j (start / 2 ^ j)))

/-! ## Private key entity

`XMSS_Parameters` and `XMSS_PublicKey` live outside `src/`; what the
claims need of them is modelled from the spec: the tree height `h`, the
hash output size `element_size` (spec §3), and the size of the raw
public-key prefix `public_key_size` (spec §6; the prefix carries the
algorithm parameters, the public seed and the root, and parsing it
recovers exactly those public fields).  The raw public-key prefix is
kept as opaque bytes `m_public`. -/

structure XMSS_Parameters : Type where
  tree_height : Nat
  element_size : Nat
  public_key_size : Nat
deriving DecidableEq

structure XMSS_PrivateKey : Type where
  params : XMSS_Parameters
  /-- raw public-key bytes (algorithm parameters, public seed, root). -/
  m_public : List Nat
  m_prf : List Nat
  /-- `m_wots_priv_key.private_seed()`. -/
  m_wots_priv_seed : List Nat
  m_unused_leaf_index : Nat
deriving DecidableEq

namespace XMSS_PrivateKey

/-- `XMSS_PrivateKey::size()`: `public_key_size + 8 + 2 * element_size`
(spec §6 layout; the method body is outside `src/`). -/
def size (p : XMSS_Parameters) : Nat :=
  p.public_key_size + 8 + 2 * p.element_size

/-- Message of the `BOTAN_ASSERT` at src lines 33-36. -/
def size_t_assert_msg : String :=
  "System type \"size_t\" not big enough to support leaf index."

/-- Message of the `Integrity_Failure` at src line 40. -/
def invalid_size_msg : String := "Invalid XMSS private key size detected."

/-- Message of the `Integrity_Failure` at src lines 56-57. -/
def leaf_bounds_msg : String := "XMSS private key leaf index out of bounds."

/-- The leaf-index accumulation loop at src lines 44-51:
`unused_leaf = (unused_leaf << 8) | *i` over the 8 bytes, MSB first. -/
def decode_leaf : List Nat → Nat → Nat
  | [], acc => acc
  | b :: rest, acc => decode_leaf rest ((acc <<< 8) ||| b)

/-- The serialization loop at src lines 293-298: 8 bytes of
`static_cast<uint64_t>(unused_leaf_index())`, most significant first. -/
def leaf_bytes (x : Nat) : List Nat :=
  let y := x % 2 ^ 64
  [y >>> 56 % 256, y >>> 48 % 256, y >>> 40 % 256, y >>> 32 % 256,
   y >>> 24 % 256, y >>> 16 % 256, y >>> 8 % 256, y % 256]

/-- `XMSS_PrivateKey::XMSS_PrivateKey(const secure_vector<uint8_t>&)`
(src lines 27-70).  `W` is `sizeof(size_t)` of the platform.  In order:
the `BOTAN_ASSERT` that `sizeof(size_t) >= ceil(tree_height / 8.f)`
(src lines 33-36; exact float arithmetic for any realistic height, so
`(h + 7) / 8` in `Nat`), the total-size check (src lines 38-41), the
leaf-index decode and bound check (src lines 44-58), then the field
population (src lines 60-69).  `p` stands for the parameters recovered
from the public prefix by the `XMSS_PublicKey` base constructor (outside
`src/`; spec §4.4 models the parse as recovering the public fields). -/
def fromRaw (W : Nat) (p : XMSS_Parameters) (raw_key : List Nat) :
    Except Botan_Error XMSS_PrivateKey :=
  if ¬ ((p.tree_height + 7) / 8 ≤ W) then
    Except.error (Botan_Error.internal_error size_t_assert_msg)
  else if raw_key.length ≠ size p then
    Except.error (Botan_Error.integrity_failure invalid_size_msg)
  else
    let unused_leaf := decode_leaf ((raw_key.drop p.public_key_size).take 8) 0
    if unused_leaf ≥ 2 ^ (p.tree_height - 1) then
      Except.error (Botan_Error.integrity_failure leaf_bounds_msg)
    else
      Except.ok
        { params := p
          m_public := raw_key.take p.public_key_size
          m_prf := (raw_key.drop (p.public_key_size + 8)).take p.element_size
          m_wots_priv_seed :=
            (raw_key.drop (p.public_key_size + 8 + p.element_size)).take p.element_size
          m_unused_leaf_index := unused_leaf }

/-- `XMSS_PrivateKey::XMSS_PrivateKey(xmss_algorithm_t, RNG&)`
(src lines 72-87).  The seeds drawn from the rng and the raw public
bytes produced by the base-class construction (including the root
`tree_hash(0, tree_height, adrs)` stored by `set_root`; the byte
assembly is outside `src/`) are parameters.  The visible constructor
contains no width check and no failure branch; the unused leaf index of
a fresh key is 0 (spec §4.4). -/
def fromRandom (p : XMSS_Parameters) (public_bytes prf wots_seed : List Nat) :
    XMSS_PrivateKey :=
  { params := p
    m_public := public_bytes
    m_prf := prf
    m_wots_priv_seed := wots_seed
    m_unused_leaf_index := 0 }

/-- `XMSS_PrivateKey::raw_private_key()` (src lines 287-306):
public bytes, then 8 bytes of the unused leaf index MSB first, then the
PRF seed, then the WOTS private seed. -/
def raw_private_key (k : XMSS_PrivateKey) : List Nat :=
  k.m_public ++ leaf_bytes k.m_unused_leaf_index ++ k.m_prf ++ k.m_wots_priv_seed

/-- `XMSS_PublicKey::algo_name()`.  Modelled from the spec: outside
`src/`; a fixed algorithm identifier string. -/
def algo_name (_ : XMSS_PrivateKey) : String := "XMSS"

end XMSS_PrivateKey

/-- `XMSS_Signature_Operation(*this)` (src line 315): the signing
capability built over the key. -/
structure XMSS_Signature_Operation : Type where
  key : XMSS_PrivateKey
deriving DecidableEq

/-- `XMSS_PrivateKey::create_signature_op` (src lines 308-318).  The rng
and the algorithm-name arguments are unnamed in the source and unused;
they are kept as arguments of arbitrary type to state this.  Providers
`"base"` and `""` are accepted; anything else throws
`Provider_Not_Found(algo_name(), provider)`. -/
def create_signature_op {R A : Type} (k : XMSS_PrivateKey) (_rng : R)
    (_algo : A) (provider : String) :
    Except Botan_Error XMSS_Signature_Operation :=
  if provider = "base" ∨ provider = "" then
    Except.ok ⟨k⟩
  else
    Except.error (Botan_Error.provider_not_found (k.algo_name) provider)

end BotanXMSS

namespace BotanX509

/-! ## Key constraints (`src/lib/x509/key_constraint.cpp`)

The enumeration values live in `pkix_enums.h`, outside `src/`; they are
the standard X.509 KeyUsage bit positions (each constraint one distinct
bit, `NO_CONSTRAINTS = 0`), which is all the compatibility logic uses. -/

def DIGITAL_SIGNATURE : Nat := 32768
def NON_REPUDIATION : Nat := 16384
def KEY_ENCIPHERMENT : Nat := 8192
def DATA_ENCIPHERMENT : Nat := 4096
def KEY_AGREEMENT : Nat := 2048
def KEY_CERT_SIGN : Nat := 1024
def CRL_SIGN : Nat := 512
def ENCIPHER_ONLY : Nat := 256
def DECIPHER_ONLY : Nat := 128

/-- The face of `Botan::Public_Key` used by `compatible_with`: only
`algo_name()` is consulted. -/
structure Public_Key : Type where
  algo_name : String
deriving DecidableEq

structure Key_Constraints : Type where
  m_value : Nat
deriving DecidableEq

namespace Key_Constraints

/-- The `permitted` mask assembled at src lines 71-103 from the key's
algorithm name. -/
def permitted_mask (name : String) : Nat :=
  let can_agree : Bool :=
    name = "DH" ∨ name = "ECDH" ∨ name.startsWith "Kyber-"
  let can_encrypt : Bool :=
    name = "RSA" ∨ name = "ElGamal" ∨ name.startsWith "Kyber-"
  let can_sign : Bool :=
    name = "RSA" ∨ name = "DSA" ∨ name = "ECDSA" ∨ name = "ECGDSA" ∨
    name = "ECKCDSA" ∨ name = "Ed25519" ∨ name = "GOST-34.10" ∨
    name = "GOST-34.10-2012-256" ∨ name = "GOST-34.10-2012-512" ∨
    name.startsWith "Dilithium-"
  (if can_agree then KEY_AGREEMENT ||| ENCIPHER_ONLY ||| DECIPHER_ONLY else 0) |||
  (if can_encrypt then KEY_ENCIPHERMENT ||| DATA_ENCIPHERMENT else 0) |||
  (if can_sign then
    DIGITAL_SIGNATURE ||| NON_REPUDIATION ||| KEY_CERT_SIGN ||| CRL_SIGN
   else 0)

/-- `Key_Constraints::compatible_with` (src lines 69-111):
`(m_value & permitted) != m_value → false`, else `true`. -/
def compatible_with (c : Key_Constraints) (pub_key : Public_Key) : Bool :=
  let permitted := permitted_mask pub_key.algo_name
  if c.m_value &&& permitted ≠ c.m_value then false else true

end Key_Constraints

end BotanX509

namespace BotanXMSS

/-! ## Concrete instances used by witnesses -/

/-- Concrete hash collaborators over `Nat` nodes, for witness evaluation. -/
def opsDemo : XMSS_Ops Nat :=
  { dflt := 0
    ltree_leaf := fun a b => a.word16 + 1000 * b.word16 + 7
    randomize_tree_hash := fun l r a =>
      2 * l + 3 * r + 5 * a.word20 + 7 * a.word24 + 11 }

/-- Default-initialized address cursor. -/
def adrsDemo : XMSS_Address := {}

/-- Small well-formed private key (`tree_height 10`, `element_size 2`,
`public_key_size 6`, leaf index `2^9 - 1`). -/
def keyDemo : XMSS_PrivateKey :=
  { params := ⟨10, 2, 6⟩
    m_public := [1, 2, 3, 4, 5, 6]
    m_prf := [7, 8]
    m_wots_priv_seed := [9, 10]
    m_unused_leaf_index := 511 }

/-! ## Byte-level helper lemmas -/

theorem lor_byte (a b : Nat) (hb : b < 256) : (a <<< 8) ||| b = a * 256 + b := by
  calc (a <<< 8) ||| b = 2 ^ 8 * a ||| b := by
        rw [Nat.shiftLeft_eq, Nat.mul_comm]
    _ = 2 ^ 8 * a + b := (Nat.mul_add_lt_is_or hb a).symm
    _ = a * 256 + b := by ring

theorem decode_leaf_cons (b : Nat) (rest : List Nat) (acc : Nat) (hb : b < 256) :
    XMSS_PrivateKey.decode_leaf (b :: rest) acc =
      XMSS_PrivateKey.decode_leaf rest (acc * 256 + b) := by
  simp [XMSS_PrivateKey.decode_leaf, lor_byte acc b hb]

theorem decode_leaf_bytes (x : Nat) (hx : x < 2 ^ 64) :
    XMSS_PrivateKey.decode_leaf (XMSS_PrivateKey.leaf_bytes x) 0 = x := by
  have hm : ∀ y : Nat, y % 256 < 256 := fun y => Nat.mod_lt _ (by norm_num)
  simp only [XMSS_PrivateKey.leaf_bytes, Nat.mod_eq_of_lt hx]
  rw [decode_leaf_cons _ _ _ (hm _), decode_leaf_cons _ _ _ (hm _),
    decode_leaf_cons _ _ _ (hm _), decode_leaf_cons _ _ _ (hm _),
    decode_leaf_cons _ _ _ (hm _), decode_leaf_cons _ _ _ (hm _),
    decode_leaf_cons _ _ _ (hm _), decode_leaf_cons _ _ _ (hm _)]
  simp only [XMSS_PrivateKey.decode_leaf, Nat.shiftRight_eq_div_pow]
  omega

@[simp] theorem leaf_bytes_length (x : Nat) :
    (XMSS_PrivateKey.leaf_bytes x).length = 8 := by
  simp [XMSS_PrivateKey.leaf_bytes]

/-- Behaviour of the raw constructor on a buffer assembled from
well-sized components. -/
theorem fromRaw_append (W : Nat) (p : XMSS_Parameters)
    (pk lb prf wots : List Nat)
    (hW : (p.tree_height + 7) / 8 ≤ W)
    (hpk : pk.length = p.public_key_size) (hlb : lb.length = 8)
    (hprf : prf.length = p.element_size)
    (hwots : wots.length = p.element_size) :
    XMSS_PrivateKey.fromRaw W p (pk ++ (lb ++ (prf ++ wots))) =
      if XMSS_PrivateKey.decode_leaf lb 0 ≥ 2 ^ (p.tree_height - 1) then
        Except.error (Botan_Error.integrity_failure XMSS_PrivateKey.leaf_bounds_msg)
      else
        Except.ok ⟨p, pk, prf, wots, XMSS_PrivateKey.decode_leaf lb 0⟩ := by
  have hlen : (pk ++ (lb ++ (prf ++ wots))).length = XMSS_PrivateKey.size p := by
    simp [XMSS_PrivateKey.size, hpk, hlb, hprf, hwots]; omega
  have hdrop0 : (pk ++ (lb ++ (prf ++ wots))).drop p.public_key_size =
      lb ++ (prf ++ wots) := List.drop_left' hpk
  have htake : ((pk ++ (lb ++ (prf ++ wots))).drop p.public_key_size).take 8 = lb := by
    rw [hdrop0]; exact List.take_left' hlb
  have htake0 : (pk ++ (lb ++ (prf ++ wots))).take p.public_key_size = pk :=
    List.take_left' hpk
  have hdrop8 : (pk ++ (lb ++ (prf ++ wots))).drop (p.public_key_size + 8) =
      prf ++ wots := by
    rw [← List.drop_drop, hdrop0]; exact List.drop_left' hlb
  have hprf' : ((pk ++ (lb ++ (prf ++ wots))).drop (p.public_key_size + 8)).take
      p.element_size = prf := by
    rw [hdrop8]; exact List.take_left' hprf
  have hdropn : (pk ++ (lb ++ (prf ++ wots))).drop
      (p.public_key_size + 8 + p.element_size) = wots := by
    rw [← List.drop_drop, hdrop8]; exact List.drop_left' hprf
  have hwots' : ((pk ++ (lb ++ (prf ++ wots))).drop
      (p.public_key_size + 8 + p.element_size)).take p.element_size = wots := by
    rw [hdropn, ← hwots]; exact List.take_length wots
  simp only [XMSS_PrivateKey.fromRaw]
  rw [if_neg (fun hc => hc hW), if_neg (fun hc => hc hlen)]
  simp only [htake, htake0, hprf', hwots']

/-! ## Claim C2 -/

/-- C2: for every validly constructed private key (well-sized fields,
in-bounds leaf index), serializing with `raw_private_key` and
re-constructing from those bytes yields a key whose public bytes, PRF
seed, WOTS private seed and unused leaf index are all identical to the
original's (the two keys are equal). -/
theorem xmss_raw_private_key_round_trip :
    ∀ (W : Nat) (k : XMSS_PrivateKey),
      (k.params.tree_height + 7) / 8 ≤ W →
      k.params.tree_height ≤ 64 →
      k.m_public.length = k.params.public_key_size →
      k.m_prf.length = k.params.element_size →
      k.m_wots_priv_seed.length = k.params.element_size →
      k.m_unused_leaf_index < 2 ^ (k.params.tree_height - 1) →
      XMSS_PrivateKey.fromRaw W k.params (XMSS_PrivateKey.raw_private_key k) =
        Except.ok k := by
  intro W k hW h64 hpk hprf hwots hleaf
  have hx : k.m_unused_leaf_index < 2 ^ 64 :=
    lt_of_lt_of_le hleaf (Nat.pow_le_pow_of_le (by norm_num) (by omega))
  simp only [XMSS_PrivateKey.raw_private_key, List.append_assoc]
  rw [fromRaw_append W k.params _ _ _ _ hW hpk (leaf_bytes_length _) hprf hwots]
  rw [decode_leaf_bytes _ hx, if_neg (by omega)]

/-- Witness for C2 at a concrete well-formed key. -/
theorem xmss_raw_private_key_round_trip_witness :
    XMSS_PrivateKey.fromRaw 8 keyDemo.params
        (XMSS_PrivateKey.raw_private_key keyDemo) = Except.ok keyDemo :=
  xmss_raw_private_key_round_trip 8 keyDemo (by decide) (by decide)
    (by decide) (by decide) (by decide) (by decide)

/-! ## Claim C3 -/

/-- C3: with well-sized components and a sane platform width, (a) any
8-byte leaf-index field decoding to at least `2^(tree_height - 1)` is
rejected with the bounds `Integrity_Failure`; (b) leaf index
`2^(tree_height - 1) - 1` is accepted and the key is populated; (c) leaf
index exactly `2^(tree_height - 1)` is rejected with the bounds
`Integrity_Failure`. -/
theorem xmss_leaf_index_bound_enforcement :
    ∀ (W : Nat) (p : XMSS_Parameters) (pk prf wots : List Nat),
      (p.tree_height + 7) / 8 ≤ W →
      1 ≤ p.tree_height → p.tree_height ≤ 64 →
      pk.length = p.public_key_size →
      prf.length = p.element_size →
      wots.length = p.element_size →
      (∀ lb : List Nat, lb.length = 8 →
        XMSS_PrivateKey.decode_leaf lb 0 ≥ 2 ^ (p.tree_height - 1) →
        XMSS_PrivateKey.fromRaw W p (pk ++ lb ++ prf ++ wots) =
          Except.error (Botan_Error.integrity_failure
            XMSS_PrivateKey.leaf_bounds_msg)) ∧
      (XMSS_PrivateKey.fromRaw W p
          (pk ++ XMSS_PrivateKey.leaf_bytes (2 ^ (p.tree_height - 1) - 1) ++
            prf ++ wots) =
        Except.ok ⟨p, pk, prf, wots, 2 ^ (p.tree_height - 1) - 1⟩) ∧
      (XMSS_PrivateKey.fromRaw W p
          (pk ++ XMSS_PrivateKey.leaf_bytes (2 ^ (p.tree_height - 1)) ++
            prf ++ wots) =
        Except.error (Botan_Error.integrity_failure
          XMSS_PrivateKey.leaf_bounds_msg)) := by
  intro W p pk prf wots hW h1 h64 hpk hprf hwots
  have hbound : 2 ^ (p.tree_height - 1) < 2 ^ 64 :=
    lt_of_le_of_lt (Nat.pow_le_pow_of_le (by norm_num) (by omega) :
        2 ^ (p.tree_height - 1) ≤ 2 ^ 63) (by norm_num)
  have hone : 1 ≤ 2 ^ (p.tree_height - 1) := Nat.one_le_two_pow
  refine ⟨?_, ?_, ?_⟩
  · intro lb hlb hge
    rw [List.append_assoc, List.append_assoc,
      fromRaw_append W p _ _ _ _ hW hpk hlb hprf hwots, if_pos hge]
  · rw [List.append_assoc, List.append_assoc,
      fromRaw_append W p _ _ _ _ hW hpk (leaf_bytes_length _) hprf hwots]
    rw [decode_leaf_bytes _ (by omega), if_neg (by omega)]
  · rw [List.append_assoc, List.append_assoc,
      fromRaw_append W p _ _ _ _ hW hpk (leaf_bytes_length _) hprf hwots]
    rw [decode_leaf_bytes _ hbound, if_pos (le_refl _)]

/-- Witness for C3 at concrete parameters (`tree_height 10`): an
all-`0xFF` leaf field and the exact bound are rejected, the bound minus
one is accepted. -/
theorem xmss_leaf_index_bound_enforcement_witness :
    (XMSS_PrivateKey.fromRaw 8 ⟨10, 2, 6⟩
        ([1, 2, 3, 4, 5, 6] ++ [255, 255, 255, 255, 255, 255, 255, 255] ++
          [7, 8] ++ [9, 10]) =
      Except.error (Botan_Error.integrity_failure
        XMSS_PrivateKey.leaf_bounds_msg)) ∧
    (XMSS_PrivateKey.fromRaw 8 ⟨10, 2, 6⟩
        ([1, 2, 3, 4, 5, 6] ++ XMSS_PrivateKey.leaf_bytes (2 ^ 9 - 1) ++
          [7, 8] ++ [9, 10]) =
      Except.ok ⟨⟨10, 2, 6⟩, [1, 2, 3, 4, 5, 6], [7, 8], [9, 10], 2 ^ 9 - 1⟩) ∧
    (XMSS_PrivateKey.fromRaw 8 ⟨10, 2, 6⟩
        ([1, 2, 3, 4, 5, 6] ++ XMSS_PrivateKey.leaf_bytes (2 ^ 9) ++
          [7, 8] ++ [9, 10]) =
      Except.error (Botan_Error.integrity_failure
        XMSS_PrivateKey.leaf_bounds_msg)) := by
  have h := xmss_leaf_index_bound_enforcement 8 ⟨10, 2, 6⟩
    [1, 2, 3, 4, 5, 6] [7, 8] [9, 10] (by decide) (by decide) (by decide)
    (by decide) (by decide) (by decide)
  exact ⟨h.1 [255, 255, 255, 255, 255, 255, 255, 255] (by decide) (by decide),
    h.2.1, h.2.2⟩

/-! ## Claim C4 -/

/-- C4: on a platform passing the width assert, any buffer whose total
length differs from `public_key_size + 8 + 2 * element_size` is rejected
with the size `Integrity_Failure` — regardless of the buffer's content,
so in particular before any leaf-index bound consideration, and no key
is produced from an ill-sized buffer. -/
theorem xmss_private_key_size_enforcement :
    ∀ (W : Nat) (p : XMSS_Parameters) (raw : List Nat),
      (p.tree_height + 7) / 8 ≤ W →
      raw.length ≠ XMSS_PrivateKey.size p →
      XMSS_PrivateKey.fromRaw W p raw =
        Except.error (Botan_Error.integrity_failure
          XMSS_PrivateKey.invalid_size_msg) := by
  intro W p raw hW hlen
  simp only [XMSS_PrivateKey.fromRaw]
  rw [if_neg (fun hc => hc hW), if_pos hlen]

/-- Witness for C4: buffers one byte shorter and one byte longer than
the exact size (18 for the demo parameters) are both rejected. -/
theorem xmss_private_key_size_enforcement_witness :
    (XMSS_PrivateKey.fromRaw 8 ⟨10, 2, 6⟩ (List.replicate 17 0) =
      Except.error (Botan_Error.integrity_failure
        XMSS_PrivateKey.invalid_size_msg)) ∧
    (XMSS_PrivateKey.fromRaw 8 ⟨10, 2, 6⟩ (List.replicate 19 0) =
      Except.error (Botan_Error.integrity_failure
        XMSS_PrivateKey.invalid_size_msg)) :=
  ⟨xmss_private_key_size_enforcement 8 ⟨10, 2, 6⟩ _ (by decide) (by decide),
   xmss_private_key_size_enforcement 8 ⟨10, 2, 6⟩ _ (by decide) (by decide)⟩

/-! ## Claim C6 (corrected) -/

/-- C6 counterexample: with `tree_height = 100`, `1 << (h-1)` does not
fit in a 64-bit `size_t` (`2^99 ≥ 2^64`), yet construction from a random
source yields a key — the rng constructor (src lines 72-87) contains no
width check and no failure branch — contradicting the claim that every
construction (from bytes and from random) refuses. -/
theorem xmss_size_t_check_counterexample :
    2 ^ (100 - 1) ≥ 2 ^ (8 * 8) ∧
    XMSS_PrivateKey.fromRandom ⟨100, 32, 68⟩ [] [] [] =
      { params := ⟨100, 32, 68⟩, m_public := [], m_prf := [],
        m_wots_priv_seed := [], m_unused_leaf_index := 0 } :=
  ⟨by norm_num, rfl⟩

/-- C6 amended: for tree height at least 1, construction from a raw byte
buffer fails with the width-assert `Internal_Error` exactly when
`1 << (tree_height - 1)` does not fit in the platform's `W`-byte
`size_t` (the code's check `sizeof(size_t) >= ceil(tree_height / 8)` is
equivalent); construction from a random source performs no such check
(see the counterexample). -/
theorem xmss_size_t_check_amended :
    ∀ (W : Nat) (p : XMSS_Parameters) (raw : List Nat),
      1 ≤ p.tree_height →
      (XMSS_PrivateKey.fromRaw W p raw =
          Except.error (Botan_Error.internal_error
            XMSS_PrivateKey.size_t_assert_msg) ↔
        2 ^ (8 * W) ≤ 2 ^ (p.tree_height - 1)) := by
  intro W p raw h1
  by_cases g : (p.tree_height + 7) / 8 ≤ W
  · have hrhs : ¬ (2 ^ (8 * W) ≤ 2 ^ (p.tree_height - 1)) := by
      intro hcon
      have := (Nat.pow_le_pow_iff_right (by norm_num : 1 < 2)).mp hcon
      omega
    simp only [XMSS_PrivateKey.fromRaw]
    rw [if_neg (fun hc => hc g)]
    constructor
    · intro hres
      exfalso
      by_cases hl : raw.length ≠ XMSS_PrivateKey.size p
      · rw [if_pos hl] at hres; exact Botan_Error.noConfusion (Except.error.inj hres)
      · rw [if_neg hl] at hres
        by_cases hb : XMSS_PrivateKey.decode_leaf ((raw.drop p.public_key_size).take 8) 0 ≥
            2 ^ (p.tree_height - 1)
        · rw [if_pos hb] at hres; exact Botan_Error.noConfusion (Except.error.inj hres)
        · rw [if_neg hb] at hres; exact Except.noConfusion hres
    · intro hcon; exact absurd hcon hrhs
  · have hrhs : 2 ^ (8 * W) ≤ 2 ^ (p.tree_height - 1) :=
      Nat.pow_le_pow_of_le (by norm_num) (by omega)
    simp only [XMSS_PrivateKey.fromRaw]
    rw [if_pos g]
    exact ⟨fun _ => hrhs, fun _ => rfl⟩

/-- Witness for C6 amended: on a 64-bit platform a height of 100 is
refused by the raw constructor. -/
theorem xmss_size_t_check_amended_witness :
    XMSS_PrivateKey.fromRaw 8 ⟨100, 32, 68⟩ [] =
      Except.error (Botan_Error.internal_error
        XMSS_PrivateKey.size_t_assert_msg) :=
  (xmss_size_t_check_amended 8 ⟨100, 32, 68⟩ [] (by norm_num)).mpr (by norm_num)

/-! ## Claim C8 -/

/-- C8: `create_signature_op` returns the signing operation for provider
`""` or `"base"`, and fails with `Provider_Not_Found` naming the
algorithm and the requested provider for every other provider string. -/
theorem xmss_create_signature_op_provider :
    ∀ (R A : Type) (k : XMSS_PrivateKey) (rng : R) (algo : A)
      (provider : String),
      ((provider = "" ∨ provider = "base") →
        create_signature_op k rng algo provider = Except.ok ⟨k⟩) ∧
      (provider ≠ "" → provider ≠ "base" →
        create_signature_op k rng algo provider =
          Except.error (Botan_Error.provider_not_found (k.algo_name)
            provider)) := by
  intro R A k rng algo provider
  constructor
  · rintro (h | h) <;> subst h <;> rfl
  · intro h1 h2
    simp [create_signature_op, h1, h2]

/-- Witness for C8 at concrete provider strings. -/
theorem xmss_create_signature_op_provider_witness :
    (create_signature_op keyDemo (0 : Nat) "SHA-256" "base" =
      Except.ok ⟨keyDemo⟩) ∧
    (create_signature_op keyDemo (0 : Nat) "SHA-256" "" =
      Except.ok ⟨keyDemo⟩) ∧
    (create_signature_op keyDemo (0 : Nat) "SHA-256" "openssl" =
      Except.error (Botan_Error.provider_not_found (keyDemo.algo_name)
        "openssl")) :=
  ⟨(xmss_create_signature_op_provider Nat String keyDemo 0 "SHA-256"
      "base").1 (Or.inr rfl),
   (xmss_create_signature_op_provider Nat String keyDemo 0 "SHA-256"
      "").1 (Or.inl rfl),
   (xmss_create_signature_op_provider Nat String keyDemo 0 "SHA-256"
      "openssl").2 (by decide) (by decide)⟩

/-! ## Claim C9 -/

/-- C9: the outcome of `create_signature_op` is determined by the key
and the provider string alone — the rng and algorithm-name arguments
(of any types) never influence it: the rng is never drawn from and the
algorithm name is never validated at this boundary. -/
theorem xmss_create_signature_op_ignores_rng_and_algo :
    ∀ (R1 R2 A1 A2 : Type) (k : XMSS_PrivateKey) (rng1 : R1) (rng2 : R2)
      (algo1 : A1) (algo2 : A2) (provider : String),
      create_signature_op k rng1 algo1 provider =
        create_signature_op k rng2 algo2 provider := by
  intro R1 R2 A1 A2 k rng1 rng2 algo1 algo2 provider
  rfl

end BotanXMSS

namespace BotanX509

/-- Bitmask inclusion expressed bitwise. -/
theorem land_eq_self_iff (v p : Nat) :
    v &&& p = v ↔ ∀ i, v.testBit i = true → p.testBit i = true := by
  constructor
  · intro h i hv
    have ht := congrArg (fun z => Nat.testBit z i) h
    simp only [Nat.testBit_and, hv, Bool.true_and] at ht
    exact ht
  · intro h
    apply Nat.eq_of_testBit_eq
    intro i
    rw [Nat.testBit_and]
    cases hv : v.testBit i
    · simp
    · simp [h i hv]

/-! ## Claim C10 -/

/-- C10: `compatible_with` returns `true` exactly when every set bit of
the constraint value lies inside the permitted mask determined by the
key's algorithm name (`permitted_mask` transcribes the
agreement/encipherment/signature sets of the source); in particular the
all-clear constraint value 0 is compatible with every public key. -/
theorem key_constraints_compatible_with_iff :
    ∀ (c : Key_Constraints) (pk : Public_Key),
      (c.compatible_with pk = true ↔
        ∀ i, c.m_value.testBit i = true →
          (Key_Constraints.permitted_mask pk.algo_name).testBit i = true) ∧
      (c.m_value = 0 → c.compatible_with pk = true) := by
  intro c pk
  have hbase : c.compatible_with pk = true ↔
      c.m_value &&& Key_Constraints.permitted_mask pk.algo_name = c.m_value := by
    by_cases h : c.m_value &&& Key_Constraints.permitted_mask pk.algo_name = c.m_value
    · simp [Key_Constraints.compatible_with, h]
    · simp [Key_Constraints.compatible_with, h]
  constructor
  · rw [hbase]
    exact land_eq_self_iff c.m_value (Key_Constraints.permitted_mask pk.algo_name)
  · intro h0
    rw [hbase, h0]
    exact Nat.zero_and _

/-- Witness for C10: the no-constraints value is compatible with an
algorithm ("XMSS") whose permitted set is empty. -/
theorem key_constraints_compatible_with_iff_witness :
    Key_Constraints.compatible_with ⟨0⟩ ⟨"XMSS"⟩ = true :=
  (key_constraints_compatible_with_iff ⟨0⟩ ⟨"XMSS"⟩).2 rfl

end BotanX509

namespace BotanXMSS

/-! ## Address cursor algebra -/

@[simp] theorem set_type_set_ots (a : XMSS_Address) (i : Nat) (t : AddrType) :
    (a.set_ots_address i).set_type t = a.set_type t := rfl

@[simp] theorem set_type_set_ltree (a : XMSS_Address) (i : Nat) (t : AddrType) :
    (a.set_ltree_address i).set_type t = a.set_type t := rfl

@[simp] theorem set_type_set_height (a : XMSS_Address) (h : Nat) (t : AddrType) :
    (a.set_tree_height h).set_type t = a.set_type t := rfl

@[simp] theorem set_type_set_index (a : XMSS_Address) (i : Nat) (t : AddrType) :
    (a.set_tree_index i).set_type t = a.set_type t := rfl

@[simp] theorem set_type_set_type (a : XMSS_Address) (t t' : AddrType) :
    (a.set_type t').set_type t = a.set_type t := rfl

theorem htAddr_def (a : XMSS_Address) (h i : Nat) :
    htAddr a h i = ⟨a.layer_addr, a.tree_addr, AddrType.Hash_Tree_Address, 0, h, i, 0⟩ := rfl

@[simp] theorem htAddr_get_tree_index (a : XMSS_Address) (h i : Nat) :
    (htAddr a h i).get_tree_index = i := rfl

@[simp] theorem htAddr_get_tree_height (a : XMSS_Address) (h i : Nat) :
    (htAddr a h i).get_tree_height = h := rfl

@[simp] theorem htAddr_set_tree_index (a : XMSS_Address) (h i j : Nat) :
    (htAddr a h i).set_tree_index j = htAddr a h j := rfl

@[simp] theorem htAddr_set_tree_height (a : XMSS_Address) (h i g : Nat) :
    (htAddr a h i).set_tree_height g = htAddr a g i := rfl

@[simp] theorem htAddr_set_type (a : XMSS_Address) (h i : Nat) (t : AddrType) :
    (htAddr a h i).set_type t = a.set_type t := rfl

theorem persistEq_refl (a : XMSS_Address) : persistEq a a := ⟨rfl, rfl⟩

theorem persistEq_htAddr (a : XMSS_Address) (h i : Nat) :
    persistEq (htAddr a h i) a := ⟨rfl, rfl⟩

theorem set_type_of_persistEq {a b : XMSS_Address} (h : persistEq a b)
    (t : AddrType) : a.set_type t = b.set_type t := by
  obtain ⟨h1, h2⟩ := h
  simp [XMSS_Address.set_type, h1, h2]

theorem htAddr_of_persistEq {a b : XMSS_Address} (h : persistEq a b)
    (g i : Nat) : htAddr a g i = htAddr b g i := by
  rw [htAddr_def, htAddr_def, h.1, h.2]

theorem leafVal_of_persistEq {Node : Type} (ops : XMSS_Ops Node)
    {a b : XMSS_Address} (h : persistEq a b) (i : Nat) :
    leafVal ops a i = leafVal ops b i := by
  unfold leafVal
  rw [set_type_of_persistEq h, set_type_of_persistEq h]

theorem merkle_of_persistEq {Node : Type} (ops : XMSS_Ops Node)
    {a b : XMSS_Address} (h : persistEq a b) :
    ∀ (t start : Nat), merkle ops a t start = merkle ops b t start := by
  intro t
  induction t with
  | zero => intro start; exact leafVal_of_persistEq ops h start
  | succ t ih =>
    intro start
    simp only [merkle, ih, htAddr_of_persistEq h]

@[simp] theorem sub1shr1_succ (k : Nat) : sub1shr1 (k + 1) = k / 2 := by
  simp [sub1shr1]

/-! ## combineLoop: unfolding and congruence -/

theorem combineLoop_zero {Node : Type} (ops : XMSS_Ops Node)
    (ns : Nat → Node) (lv : Nat → Nat) (a : XMSS_Address) :
    combineLoop ops 0 ns lv a = ⟨ns, lv, 0, a⟩ := rfl

theorem combineLoop_merge {Node : Type} (ops : XMSS_Ops Node) (l : Nat)
    (ns : Nat → Node) (lv : Nat → Nat) (a : XMSS_Address)
    (h : lv (l + 1) = lv l) :
    combineLoop ops (l + 1) ns lv a =
      combineLoop ops l
        (upd ns l (ops.randomize_tree_hash (ns l) (ns (l + 1))
          (a.set_tree_index (sub1shr1 a.get_tree_index))))
        (upd lv l (lv l + 1))
        ((a.set_tree_index (sub1shr1 a.get_tree_index)).set_tree_height
          ((a.set_tree_index (sub1shr1 a.get_tree_index)).get_tree_height + 1)) := by
  simp [combineLoop, h]

theorem combineLoop_stop {Node : Type} (ops : XMSS_Ops Node) (l : Nat)
    (ns : Nat → Node) (lv : Nat → Nat) (a : XMSS_Address)
    (h : lv (l + 1) ≠ lv l) :
    combineLoop ops (l + 1) ns lv a = ⟨ns, lv, l + 1, a⟩ := by
  simp [combineLoop, h]

theorem combineLoop_congr {Node : Type} (ops : XMSS_Ops Node) :
    ∀ (lvl : Nat) (ns ns' : Nat → Node) (lv lv' : Nat → Nat)
      (a : XMSS_Address),
      (∀ x, x ≤ lvl → ns x = ns' x ∧ lv x = lv' x) →
      EqLe (combineLoop ops lvl ns lv a) (combineLoop ops lvl ns' lv' a) := by
  intro lvl
  induction lvl with
  | zero =>
    intro ns ns' lv lv' a h
    exact ⟨rfl, rfl, fun x hx => h x (by simpa [combineLoop] using hx)⟩
  | succ l ih =>
    intro ns ns' lv lv' a h
    by_cases hc : lv (l + 1) = lv l
    · have hc' : lv' (l + 1) = lv' l := by
        rw [← (h (l + 1) le_rfl).2, ← (h l (by omega)).2]; exact hc
      rw [combineLoop_merge _ _ _ _ _ hc, combineLoop_merge _ _ _ _ _ hc']
      apply ih
      intro x hx
      constructor
      · by_cases hxl : x = l
        · rw [hxl]
          simp only [upd_same]
          rw [(h l (by omega)).1, (h (l + 1) le_rfl).1]
        · rw [upd_other _ _ _ _ hxl, upd_other _ _ _ _ hxl]
          exact (h x (by omega)).1
      · by_cases hxl : x = l
        · rw [hxl]
          simp only [upd_same]
          rw [(h l (by omega)).2]
        · rw [upd_other _ _ _ _ hxl, upd_other _ _ _ _ hxl]
          exact (h x (by omega)).2
    · have hc' : lv' (l + 1) ≠ lv' l := by
        rw [← (h (l + 1) le_rfl).2, ← (h l (by omega)).2]; exact hc
      rw [combineLoop_stop _ _ _ _ _ hc, combineLoop_stop _ _ _ _ _ hc']
      exact ⟨rfl, rfl, fun x hx => h x hx⟩

end BotanXMSS

namespace BotanXMSS

/-! ## State congruence and loop composition -/

theorem EqLt_refl {Node : Type} (s : THState Node) : EqLt s s :=
  ⟨rfl, rfl, fun _ _ => ⟨rfl, rfl⟩⟩

theorem EqLt_trans {Node : Type} {s1 s2 s3 : THState Node}
    (h1 : EqLt s1 s2) (h2 : EqLt s2 s3) : EqLt s1 s3 := by
  obtain ⟨l1, a1, f1⟩ := h1
  obtain ⟨l2, a2, f2⟩ := h2
  refine ⟨l1.trans l2, a1.trans a2, fun x hx => ?_⟩
  have hx2 : x < s2.level := l1 ▸ hx
  exact ⟨(f1 x hx).1.trans (f2 x hx2).1, (f1 x hx).2.trans (f2 x hx2).2⟩

theorem EqLt_bump {Node : Type} {r r' : THState Node} (h : EqLe r r') :
    EqLt (bump r) (bump r') := by
  obtain ⟨hl, ha, hf⟩ := h
  refine ⟨by simp [bump, hl], ha, fun x hx => ?_⟩
  have hx' : x ≤ r.level := by simp [bump] at hx; omega
  exact hf x hx'

theorem leafStep_def {Node : Type} (ops : XMSS_Ops Node) (s : THState Node)
    (i : Nat) :
    leafStep ops s i = bump (combineLoop ops s.level
      (upd s.nodes s.level (leafVal ops s.adrs i))
      (upd s.node_levels s.level 0)
      (htAddr s.adrs 0 i)) := rfl

theorem leafStep_congr {Node : Type} (ops : XMSS_Ops Node)
    {s s' : THState Node} (i : Nat) (h : EqLt s s') :
    EqLt (leafStep ops s i) (leafStep ops s' i) := by
  obtain ⟨hl, ha, hf⟩ := h
  rw [leafStep_def, leafStep_def, ← ha, ← hl]
  apply EqLt_bump
  apply combineLoop_congr
  intro x hx
  by_cases hxl : x = s.level
  · rw [hxl]
    simp [upd_same]
  · rw [upd_other _ _ _ _ hxl, upd_other _ _ _ _ hxl,
      upd_other _ _ _ _ hxl, upd_other _ _ _ _ hxl]
    exact hf x (by omega)

theorem subtreeLoop_congr {Node : Type} (ops : XMSS_Ops Node) :
    ∀ (c : Nat) {s s' : THState Node} (i : Nat), EqLt s s' →
      EqLt (subtreeLoop ops s i c) (subtreeLoop ops s' i c) := by
  intro c
  induction c with
  | zero => intro s s' i h; exact h
  | succ c ih => intro s s' i h; exact ih (i + 1) (leafStep_congr ops i h)

theorem subtreeLoop_add {Node : Type} (ops : XMSS_Ops Node) :
    ∀ (a b : Nat) (s : THState Node) (i : Nat),
      subtreeLoop ops s i (a + b) =
        subtreeLoop ops (subtreeLoop ops s i a) (i + a) b := by
  intro a
  induction a with
  | zero =>
    intro b s i
    simp [subtreeLoop]
  | succ a ih =>
    intro b s i
    have h1 : a + 1 + b = a + b + 1 := by omega
    have h2 : i + (a + 1) = i + 1 + a := by omega
    rw [h1, h2]
    show subtreeLoop ops (leafStep ops s i) (i + 1) (a + b) =
      subtreeLoop ops (subtreeLoop ops (leafStep ops s i) (i + 1) a)
        (i + 1 + a) b
    exact ih b (leafStep ops s i) (i + 1)

theorem subtreeLoop_snoc {Node : Type} (ops : XMSS_Ops Node)
    (s : THState Node) (i c : Nat) :
    subtreeLoop ops s i (c + 1) =
      leafStep ops (subtreeLoop ops s i c) (i + c) := by
  rw [subtreeLoop_add ops c 1 s i]
  rfl

end BotanXMSS

namespace BotanXMSS

/-! ## The aligned-block lemma for the sequential engine -/

/-- When every stack entry sits strictly above level `j`, the cascade
after pushing the block node stops immediately. -/
theorem blockResult_stop {Node : Type} (ops : XMSS_Ops Node)
    (s : THState Node) (j start : Nat)
    (hroom : ∀ x, x < s.level → j + 1 ≤ s.node_levels x) :
    blockResult ops s j start =
      ⟨upd s.nodes s.level (merkle ops s.adrs j start),
       upd s.node_levels s.level j,
       s.level + 1,
       htAddr s.adrs j (start / 2 ^ j)⟩ := by
  unfold blockResult bump
  rcases hs : s.level with _ | l
  · rw [combineLoop_zero]
  · have hne : (upd s.node_levels (l + 1) j) (l + 1) ≠
        (upd s.node_levels (l + 1) j) l := by
      rw [upd_same, upd_other _ _ _ _ (by omega : l ≠ l + 1)]
      have := hroom l (by omega)
      omega
    rw [combineLoop_stop _ _ _ _ _ hne]

/-- Processing the second half-block at level `j` on top of the first
half's node merges exactly once into the `j + 1` block node. -/
theorem blockResult_merge {Node : Type} (ops : XMSS_Ops Node)
    (s : THState Node) (j start : Nat) :
    EqLt (blockResult ops
      (⟨upd s.nodes s.level (merkle ops s.adrs j start),
        upd s.node_levels s.level j,
        s.level + 1,
        htAddr s.adrs j (start / 2 ^ j)⟩ : THState Node)
      j (start + 2 ^ j))
      (blockResult ops s (j + 1) start) := by
  have hne : s.level ≠ s.level + 1 := by omega
  have hpe : persistEq (htAddr s.adrs j (start / 2 ^ j)) s.adrs :=
    persistEq_htAddr _ _ _
  have hdd : start / 2 ^ j / 2 = start / 2 ^ (j + 1) := by
    rw [Nat.div_div_eq_div_mul, ← pow_succ]
  unfold blockResult
  dsimp only
  rw [merkle_of_persistEq ops hpe, htAddr_of_persistEq hpe,
    Nat.add_div_right _ (Nat.two_pow_pos j)]
  have hcond : (upd (upd s.node_levels s.level j) (s.level + 1) j)
      (s.level + 1) =
      (upd (upd s.node_levels s.level j) (s.level + 1) j) s.level := by
    rw [upd_same, upd_other _ _ _ _ hne, upd_same]
  rw [combineLoop_merge _ _ _ _ _ hcond]
  simp only [htAddr_get_tree_index, sub1shr1_succ, htAddr_set_tree_index,
    htAddr_get_tree_height, htAddr_set_tree_height, hdd]
  have hv2 : upd (upd s.node_levels s.level j) (s.level + 1) j s.level = j := by
    rw [upd_other _ _ _ _ hne, upd_same]
  have hn1 : upd (upd s.nodes s.level (merkle ops s.adrs j start))
      (s.level + 1) (merkle ops s.adrs j (start + 2 ^ j)) s.level =
      merkle ops s.adrs j start := by
    rw [upd_other _ _ _ _ hne, upd_same]
  have hn2 : upd (upd s.nodes s.level (merkle ops s.adrs j start))
      (s.level + 1) (merkle ops s.adrs j (start + 2 ^ j)) (s.level + 1) =
      merkle ops s.adrs j (start + 2 ^ j) := upd_same _ _ _
  rw [hv2, hn1, hn2]
  have hmg : ops.randomize_tree_hash (merkle ops s.adrs j start)
      (merkle ops s.adrs j (start + 2 ^ j))
      (htAddr s.adrs j (start / 2 ^ (j + 1))) =
      merkle ops s.adrs (j + 1) start := rfl
  rw [hmg]
  apply EqLt_bump
  apply combineLoop_congr
  intro x hx
  by_cases hxl : x = s.level
  · rw [hxl]
    constructor
    · rw [upd_same, upd_same]
    · rw [upd_same, upd_same]
  · have hxne : x ≠ s.level + 1 := by omega
    constructor
    · rw [upd_other _ _ _ _ hxl, upd_other _ _ _ _ hxne,
        upd_other _ _ _ _ hxl, upd_other _ _ _ _ hxl]
    · rw [upd_other _ _ _ _ hxl, upd_other _ _ _ _ hxne,
        upd_other _ _ _ _ hxl, upd_other _ _ _ _ hxl]

/-- The aligned-block lemma: processing `2 ^ j` consecutive leaves from
a state whose stack entries all sit at level at least `j` behaves, on
everything later reads, like pushing the block's Merkle node with the
cursor at the block root and cascading. -/
theorem subtree_block {Node : Type} (ops : XMSS_Ops Node) :
    ∀ (j start : Nat) (s : THState Node),
      (∀ x, x < s.level → j ≤ s.node_levels x) →
      EqLt (subtreeLoop ops s start (2 ^ j)) (blockResult ops s j start) := by
  intro j
  induction j with
  | zero =>
    intro start s _
    have hdiv : start / 2 ^ 0 = start := by simp
    show EqLt (leafStep ops s start) (blockResult ops s 0 start)
    rw [leafStep_def]
    unfold blockResult
    rw [hdiv]
    exact EqLt_refl _
  | succ j ih =>
    intro start s hroom
    have hsplit : (2 : Nat) ^ (j + 1) = 2 ^ j + 2 ^ j := by
      rw [pow_succ]; omega
    rw [hsplit, subtreeLoop_add]
    have h1 := ih start s (fun x hx => Nat.le_of_succ_le (hroom x hx))
    rw [blockResult_stop ops s j start hroom] at h1
    have hroomE : ∀ x, x < (⟨upd s.nodes s.level (merkle ops s.adrs j start),
        upd s.node_levels s.level j, s.level + 1,
        htAddr s.adrs j (start / 2 ^ j)⟩ : THState Node).level →
        j ≤ (⟨upd s.nodes s.level (merkle ops s.adrs j start),
          upd s.node_levels s.level j, s.level + 1,
          htAddr s.adrs j (start / 2 ^ j)⟩ : THState Node).node_levels x := by
      intro x hx
      dsimp only at hx ⊢
      by_cases hxl : x = s.level
      · rw [hxl, upd_same]
      · rw [upd_other _ _ _ _ hxl]
        exact Nat.le_of_succ_le (hroom x (by omega))
    have h2 := ih (start + 2 ^ j) _ hroomE
    have hc := subtreeLoop_congr ops (2 ^ j) (start + 2 ^ j) h1
    exact EqLt_trans hc (EqLt_trans h2 (blockResult_merge ops s j start))

end BotanXMSS

namespace BotanXMSS

/-- Sequential engine correctness: a full `tree_hash_subtree` run
computes the Merkle node of its leaf range, ends with a single stack
entry, and leaves the cursor at the computed node's position. -/
theorem tree_hash_subtree_correct {Node : Type} (ops : XMSS_Ops Node)
    (start t : Nat) (adrs : XMSS_Address) :
    tree_hash_subtree ops start t adrs = merkle ops adrs t start ∧
    (tree_hash_subtree_run ops start t adrs).level = 1 ∧
    (tree_hash_subtree_run ops start t adrs).adrs =
      htAddr adrs t (start / 2 ^ t) := by
  have h := subtree_block ops t start (initState ops adrs)
    (fun x hx => absurd hx (Nat.not_lt_zero x))
  have hB : blockResult ops (initState ops adrs) t start =
      ⟨upd (fun _ => ops.dflt) 0 (merkle ops adrs t start),
       upd (fun _ => 0) 0 t, 1, htAddr adrs t (start / 2 ^ t)⟩ := by
    simp only [blockResult, bump, initState, combineLoop_zero]
  rw [hB] at h
  obtain ⟨hl, ha, hf⟩ := h
  refine ⟨?_, hl, ha⟩
  show (subtreeLoop ops (initState ops adrs) start (2 ^ t)).nodes
      ((subtreeLoop ops (initState ops adrs) start (2 ^ t)).level - 1) =
    merkle ops adrs t start
  rw [hl]
  have h0 : (0 : Nat) < (subtreeLoop ops (initState ops adrs) start
      (2 ^ t)).level := by rw [hl]; norm_num
  show (subtreeLoop ops (initState ops adrs) start (2 ^ t)).nodes 0 =
    merkle ops adrs t start
  rw [(hf 0 h0).1]
  simp

end BotanXMSS

namespace BotanXMSS

/-- One combination pass preserves the level invariant: from `2 ^ (L+1)`
correct subtree roots of height `t - (L+1)` it produces `2 ^ L` correct
roots of height `t - L`, with cursors of the hash-tree shape. -/
theorem onePass_inv {Node : Type} (ops : XMSS_Ops Node) (base : XMSS_Address)
    (t L start : Nat) (hL : L + 1 ≤ t)
    (st : (Nat → Node) × (Nat → XMSS_Address))
    (h : ∀ i, i < 2 ^ (L + 1) →
      st.1 i = merkle ops base (t - (L + 1)) (start + i * 2 ^ (t - (L + 1))) ∧
      ∃ w, st.2 i = htAddr base w (start / 2 ^ (t - (L + 1)) + i)) :
    ∀ i, i < 2 ^ L →
      (onePass ops t L st).1 i =
        merkle ops base (t - L) (start + i * 2 ^ (t - L)) ∧
      ∃ w, (onePass ops t L st).2 i =
        htAddr base w (start / 2 ^ (t - L) + i) := by
  intro i hi
  have hi1 : 2 * i < 2 ^ (L + 1) := by rw [pow_succ]; omega
  have hi2 : 2 * i + 1 < 2 ^ (L + 1) := by rw [pow_succ]; omega
  have hii : i < 2 ^ (L + 1) := by rw [pow_succ]; omega
  obtain ⟨hn_l, -⟩ := h (2 * i) hi1
  obtain ⟨hn_r, ⟨wr, ha_r⟩⟩ := h (2 * i + 1) hi2
  obtain ⟨-, ⟨wi, ha_i⟩⟩ := h i hii
  have hTL : t - L = t - (L + 1) + 1 := by omega
  have hpow : (2 : Nat) ^ (t - L) = 2 ^ (t - (L + 1)) * 2 := by
    rw [hTL, pow_succ]
  have haddr : ((st.2 i).set_tree_height (t - (L + 1))).set_tree_index
      (sub1shr1 (st.2 (2 * i + 1)).get_tree_index) =
      htAddr base (t - (L + 1)) (start / 2 ^ (t - L) + i) := by
    rw [ha_i, ha_r, htAddr_set_tree_height, htAddr_get_tree_index,
      show start / 2 ^ (t - (L + 1)) + (2 * i + 1) =
        start / 2 ^ (t - (L + 1)) + 2 * i + 1 by omega,
      sub1shr1_succ, htAddr_set_tree_index]
    congr 1
    rw [Nat.mul_comm 2 i, Nat.add_mul_div_right _ _ (by norm_num : 0 < 2),
      Nat.div_div_eq_div_mul, ← hpow]
  constructor
  · show (if i < 2 ^ L then
        ops.randomize_tree_hash (st.1 (2 * i)) (st.1 (2 * i + 1))
          (((st.2 i).set_tree_height (t - (L + 1))).set_tree_index
            (sub1shr1 (st.2 (2 * i + 1)).get_tree_index))
      else st.1 i) =
      merkle ops base (t - L) (start + i * 2 ^ (t - L))
    rw [if_pos hi, hn_l, hn_r, haddr]
    have heq1 : start + 2 * i * 2 ^ (t - (L + 1)) =
        start + i * 2 ^ (t - L) := by rw [hpow]; ring
    have heq2 : start + (2 * i + 1) * 2 ^ (t - (L + 1)) =
        start + i * 2 ^ (t - L) + 2 ^ (t - (L + 1)) := by rw [hpow]; ring
    have heq3 : start / 2 ^ (t - L) + i =
        (start + i * 2 ^ (t - L)) / 2 ^ (t - (L + 1) + 1) := by
      rw [← hTL, Nat.add_mul_div_right _ _ (Nat.two_pow_pos (t - L))]
    rw [heq1, heq2, heq3, hTL]
    rfl
  · refine ⟨t - (L + 1), ?_⟩
    show (if i < 2 ^ L then
        ((st.2 i).set_tree_height (t - (L + 1))).set_tree_index
          (sub1shr1 (st.2 (2 * i + 1)).get_tree_index)
      else st.2 i) =
      htAddr base (t - (L + 1)) (start / 2 ^ (t - L) + i)
    rw [if_pos hi, haddr]

end BotanXMSS

namespace BotanXMSS

/-- The `while(level-- > 1)` loop turns the level-`l` invariant into the
level-1 invariant (two correct height-`t-1` roots with shaped cursors). -/
theorem passLoop_inv {Node : Type} (ops : XMSS_Ops Node) (base : XMSS_Address)
    (t start : Nat) :
    ∀ (l : Nat), 1 ≤ l → l ≤ t →
    ∀ (st : (Nat → Node) × (Nat → XMSS_Address)),
      (∀ i, i < 2 ^ l →
        st.1 i = merkle ops base (t - l) (start + i * 2 ^ (t - l)) ∧
        ∃ w, st.2 i = htAddr base w (start / 2 ^ (t - l) + i)) →
      ∀ i, i < 2 →
        (passLoop ops t l st).1 i =
          merkle ops base (t - 1) (start + i * 2 ^ (t - 1)) ∧
        ∃ w, (passLoop ops t l st).2 i =
          htAddr base w (start / 2 ^ (t - 1) + i) := by
  intro l
  induction l with
  | zero => intro h10; omega
  | succ l ih =>
    intro _ hlt st hst
    rcases l with _ | l0
    · exact fun i hi => hst i (by norm_num; omega)
    · show ∀ i, i < 2 →
        (passLoop ops t (l0 + 1) (onePass ops t (l0 + 1) st)).1 i =
          merkle ops base (t - 1) (start + i * 2 ^ (t - 1)) ∧
        ∃ w, (passLoop ops t (l0 + 1) (onePass ops t (l0 + 1) st)).2 i =
          htAddr base w (start / 2 ^ (t - 1) + i)
      exact ih (by omega) (by omega) (onePass ops t (l0 + 1) st)
        (onePass_inv ops base t (l0 + 1) start (by omega) st hst)

/-- The final root combination on the calling thread produces the full
Merkle node. -/
theorem root_step {Node : Type} (ops : XMSS_Ops Node) (base : XMSS_Address)
    (t start : Nat) (ht1 : 1 ≤ t)
    (st : (Nat → Node) × (Nat → XMSS_Address))
    (h : ∀ i, i < 2 →
      st.1 i = merkle ops base (t - 1) (start + i * 2 ^ (t - 1)) ∧
      ∃ w, st.2 i = htAddr base w (start / 2 ^ (t - 1) + i)) :
    ops.randomize_tree_hash (st.1 0) (st.1 1)
      (((st.2 0).set_tree_height (t - 1)).set_tree_index
        (sub1shr1 (st.2 1).get_tree_index)) = merkle ops base t start := by
  obtain ⟨hn0, ⟨w0, ha0⟩⟩ := h 0 (by norm_num)
  obtain ⟨hn1, ⟨w1, ha1⟩⟩ := h 1 (by norm_num)
  have htt : t = t - 1 + 1 := by omega
  rw [hn0, hn1, ha0, ha1, htAddr_set_tree_height, htAddr_get_tree_index,
    sub1shr1_succ, htAddr_set_tree_index]
  have he0 : start + 0 * 2 ^ (t - 1) = start := by ring
  have he1 : start + 1 * 2 ^ (t - 1) = start + 2 ^ (t - 1) := by ring
  have hdd : start / 2 ^ (t - 1) / 2 = start / 2 ^ (t - 1 + 1) := by
    rw [Nat.div_div_eq_div_mul, ← pow_succ]
  rw [he0, he1, hdd]
  conv_rhs => rw [htt]
  rfl

end BotanXMSS

namespace BotanXMSS

/-- Parallel engine correctness: for any split level at most the target
height, the threaded path computes the same Merkle node specification. -/
theorem tree_hash_par_correct {Node : Type} (ops : XMSS_Ops Node)
    (start t s : Nat) (adrs : XMSS_Address) (hs : s ≤ t) :
    tree_hash_par ops start t s adrs = merkle ops adrs t start := by
  by_cases h0 : s = 0
  · subst h0
    show tree_hash_subtree ops start t adrs = merkle ops adrs t start
    exact (tree_hash_subtree_correct ops start t adrs).1
  · have hs1 : 1 ≤ s := by omega
    have ht1 : 1 ≤ t := by omega
    have hoffs : 2 ^ t / 2 ^ s = 2 ^ (t - s) := Nat.pow_div hs (by norm_num)
    unfold tree_hash_par
    rw [if_neg h0]
    apply root_step ops adrs t start ht1
    apply passLoop_inv ops adrs t start s hs1 hs
    intro i hi
    constructor
    · show (if i < 2 ^ s then
          (tree_hash_subtree_run ops (start + i * (2 ^ t / 2 ^ s))
            (t - s) adrs).nodes
            ((tree_hash_subtree_run ops (start + i * (2 ^ t / 2 ^ s))
              (t - s) adrs).level - 1)
        else ops.dflt) =
        merkle ops adrs (t - s) (start + i * 2 ^ (t - s))
      rw [if_pos hi, hoffs]
      exact (tree_hash_subtree_correct ops (start + i * 2 ^ (t - s))
        (t - s) adrs).1
    · refine ⟨t - s, ?_⟩
      show (if i < 2 ^ s then
          (tree_hash_subtree_run ops (start + i * (2 ^ t / 2 ^ s))
            (t - s) adrs).adrs
        else adrs) =
        htAddr adrs (t - s) (start / 2 ^ (t - s) + i)
      rw [if_pos hi, hoffs]
      rw [(tree_hash_subtree_correct ops (start + i * 2 ^ (t - s))
        (t - s) adrs).2.2]
      congr 1
      exact Nat.add_mul_div_right _ _ (Nat.two_pow_pos _)

end BotanXMSS

namespace BotanXMSS

/-! ## Claim C1 -/

/-- C1: for every tree height `h ≤ 6`, every hash collaborator (i.e.
every fixed seed material), every aligned start index and every split
level `0 ≤ s ≤ h`, the parallel `tree_hash` computation (partition into
`2^s` contiguous subtrees computed by the sequential subtree algorithm,
then pairwise level-by-level combination with parent index
`(index - 1) >> 1`) returns exactly the node of the sequential
stack-based computation on the same inputs.  (The proof goes through
both sides equalling the specification Merkle node.) -/
theorem xmss_tree_hash_parallel_eq_sequential :
    ∀ (Node : Type) (ops : XMSS_Ops Node) (h s start : Nat)
      (adrs : XMSS_Address),
      h ≤ 6 → s ≤ h → 2 ^ h ∣ start →
      tree_hash_par ops start h s adrs =
        tree_hash_subtree ops start h adrs := by
  intro Node ops h s start adrs _ hs _
  rw [tree_hash_par_correct ops start h s adrs hs,
    (tree_hash_subtree_correct ops start h adrs).1]

/-- Witness for C1: height 2, split level 1, start index 4, concrete
collaborators. -/
theorem xmss_tree_hash_parallel_eq_sequential_witness :
    tree_hash_par opsDemo 4 2 1 adrsDemo =
      tree_hash_subtree opsDemo 4 2 adrsDemo :=
  xmss_tree_hash_parallel_eq_sequential Nat opsDemo 2 1 4 adrsDemo
    (by norm_num) (by norm_num) (by norm_num)

/-! ## Claim C5 -/

/-- C5: `tree_hash` has the precondition that the start index is
divisible by `2^target_height`; on violation it fails with the fatal
`Internal_Error` of the `BOTAN_ASSERT` instead of returning a value,
and under the precondition it returns the Merkle node covering
`[start_idx, start_idx + 2^target_height)` (the specification-side
`merkle` definition).  The split level is `min(target, ...)`, hence the
hypothesis `s ≤ t`. -/
theorem xmss_tree_hash_contract :
    ∀ (Node : Type) (ops : XMSS_Ops Node) (start t s : Nat)
      (adrs : XMSS_Address),
      s ≤ t →
      (start % 2 ^ t = 0 →
        tree_hash ops start t s adrs = Except.ok (merkle ops adrs t start)) ∧
      (start % 2 ^ t ≠ 0 →
        tree_hash ops start t s adrs =
          Except.error (Botan_Error.internal_error tree_hash_align_msg)) := by
  intro Node ops start t s adrs hst
  constructor
  · intro halign
    unfold tree_hash
    rw [if_neg (by simp [halign])]
    rw [if_neg (fun hc =>
      hc.2 (Nat.mod_eq_zero_of_dvd (pow_dvd_pow 2 hst)))]
    rw [tree_hash_par_correct ops start t s adrs hst]
  · intro hmis
    unfold tree_hash
    rw [if_pos hmis]

/-- Witness for C5: aligned start 4 at height 2 returns the Merkle node;
misaligned start 3 fails with the alignment assert. -/
theorem xmss_tree_hash_contract_witness :
    (tree_hash opsDemo 4 2 1 adrsDemo =
      Except.ok (merkle opsDemo adrsDemo 2 4)) ∧
    (tree_hash opsDemo 3 2 1 adrsDemo =
      Except.error (Botan_Error.internal_error tree_hash_align_msg)) :=
  ⟨(xmss_tree_hash_contract Nat opsDemo 4 2 1 adrsDemo
      (by norm_num)).1 (by norm_num),
   (xmss_tree_hash_contract Nat opsDemo 3 2 1 adrsDemo
      (by norm_num)).2 (by norm_num)⟩

end BotanXMSS

namespace BotanXMSS

/-! ## Stack-shape invariant for claim C7 -/

/-- The combine cascade only lowers `level`, keeps the surviving stack
strictly descending (pending entry included), and preserves the total
leaf weight of stack plus pending node. -/
theorem combineLoop_levels {Node : Type} (ops : XMSS_Ops Node) :
    ∀ (lvl : Nat) (ns : Nat → Node) (lv : Nat → Nat) (a : XMSS_Address),
      StrictDesc lv lvl →
      (lvl = 0 ∨ lv lvl ≤ lv (lvl - 1)) →
      (combineLoop ops lvl ns lv a).level ≤ lvl ∧
      StrictDesc (combineLoop ops lvl ns lv a).node_levels
        ((combineLoop ops lvl ns lv a).level + 1) ∧
      stackWeight (combineLoop ops lvl ns lv a).node_levels
        ((combineLoop ops lvl ns lv a).level + 1) = stackWeight lv (lvl + 1) := by
  intro lvl
  induction lvl with
  | zero =>
    intro ns lv a _ _
    refine ⟨le_refl _, fun x y hxy hy => ?_, rfl⟩
    have hy1 : y < 1 := hy
    omega
  | succ l ih =>
    intro ns lv a hdesc hpend
    by_cases hc : lv (l + 1) = lv l
    · rw [combineLoop_merge _ _ _ _ _ hc]
      have hdesc1 : StrictDesc (upd lv l (lv l + 1)) l := by
        intro x y hxy hy
        rw [upd_other _ _ _ _ (by omega : x ≠ l),
          upd_other _ _ _ _ (by omega : y ≠ l)]
        exact hdesc x y hxy (by omega)
      have hpend1 : l = 0 ∨
          (upd lv l (lv l + 1)) l ≤ (upd lv l (lv l + 1)) (l - 1) := by
        rcases Nat.eq_zero_or_pos l with h | h
        · exact Or.inl h
        · refine Or.inr ?_
          rw [upd_same, upd_other _ _ _ _ (by omega : l - 1 ≠ l)]
          have := hdesc (l - 1) l (by omega) (by omega)
          omega
      obtain ⟨hle, hsd, hwt⟩ := ih _ _ _ hdesc1 hpend1
      refine ⟨le_trans hle (by omega), hsd, ?_⟩
      rw [hwt]
      unfold stackWeight
      rw [Finset.sum_range_succ, Finset.sum_range_succ, Finset.sum_range_succ]
      have hsum : Finset.sum (Finset.range l)
          (fun x => 2 ^ (upd lv l (lv l + 1)) x) =
          Finset.sum (Finset.range l) (fun x => 2 ^ lv x) := by
        apply Finset.sum_congr rfl
        intro x hx
        have hxl : x ≠ l := by
          have := Finset.mem_range.mp hx
          omega
        rw [upd_other _ _ _ _ hxl]
      rw [hsum, upd_same, hc, pow_succ]
      ring
    · rw [combineLoop_stop _ _ _ _ _ hc]
      refine ⟨le_refl _, ?_, rfl⟩
      intro x y hxy hy
      have hy2 : y < l + 2 := hy
      rcases Nat.lt_or_ge y (l + 1) with h | h
      · exact hdesc x y hxy h
      · have hy1 : y = l + 1 := by omega
        have hlt : lv (l + 1) < lv l := by
          rcases hpend with h0 | hle
          · omega
          · have hle' : lv (l + 1) ≤ lv l := by simpa using hle
            omega
        rw [hy1]
        rcases Nat.lt_or_ge x l with hx | hx
        · exact lt_trans hlt (hdesc x l hx (by omega))
        · have hx1 : x = l := by omega
          rw [hx1]
          exact hlt

/-- Each leaf iteration keeps the stack strictly descending and adds
exactly one leaf of weight. -/
theorem leafStep_inv {Node : Type} (ops : XMSS_Ops Node) (s : THState Node)
    (i m : Nat) (hdesc : StrictDesc s.node_levels s.level)
    (hw : stackWeight s.node_levels s.level = m) :
    StrictDesc (leafStep ops s i).node_levels (leafStep ops s i).level ∧
    stackWeight (leafStep ops s i).node_levels (leafStep ops s i).level =
      m + 1 := by
  have hdesc1 : StrictDesc (upd s.node_levels s.level 0) s.level := by
    intro x y hxy hy
    rw [upd_other _ _ _ _ (by omega : x ≠ s.level),
      upd_other _ _ _ _ (by omega : y ≠ s.level)]
    exact hdesc x y hxy hy
  have hpend1 : s.level = 0 ∨
      (upd s.node_levels s.level 0) s.level ≤
        (upd s.node_levels s.level 0) (s.level - 1) := by
    refine Or.inr ?_
    rw [upd_same]
    exact Nat.zero_le _
  obtain ⟨hle, hsd, hwt⟩ := combineLoop_levels ops s.level
    (upd s.nodes s.level (leafVal ops s.adrs i))
    (upd s.node_levels s.level 0) (htAddr s.adrs 0 i) hdesc1 hpend1
  rw [leafStep_def]
  refine ⟨hsd, ?_⟩
  show stackWeight (combineLoop ops s.level
      (upd s.nodes s.level (leafVal ops s.adrs i))
      (upd s.node_levels s.level 0) (htAddr s.adrs 0 i)).node_levels
      ((combineLoop ops s.level
        (upd s.nodes s.level (leafVal ops s.adrs i))
        (upd s.node_levels s.level 0) (htAddr s.adrs 0 i)).level + 1) =
    m + 1
  rw [hwt]
  unfold stackWeight
  rw [Finset.sum_range_succ, upd_same, pow_zero]
  have hsum : Finset.sum (Finset.range s.level)
      (fun x => 2 ^ (upd s.node_levels s.level 0) x) =
      Finset.sum (Finset.range s.level) (fun x => 2 ^ s.node_levels x) := by
    apply Finset.sum_congr rfl
    intro x hx
    have hxl : x ≠ s.level := by
      have := Finset.mem_range.mp hx
      omega
    rw [upd_other _ _ _ _ hxl]
  rw [hsum]
  unfold stackWeight at hw
  omega

/-- Run invariant: after `m` leaf iterations the stack is strictly
descending and its total weight is exactly `m`. -/
theorem subtree_run_stack {Node : Type} (ops : XMSS_Ops Node)
    (adrs : XMSS_Address) (start : Nat) :
    ∀ m, StrictDesc (subtreeLoop ops (initState ops adrs) start m).node_levels
        (subtreeLoop ops (initState ops adrs) start m).level ∧
      stackWeight (subtreeLoop ops (initState ops adrs) start m).node_levels
        (subtreeLoop ops (initState ops adrs) start m).level = m := by
  intro m
  induction m with
  | zero =>
    refine ⟨fun x y hxy hy => ?_, ?_⟩
    · exact absurd hy (Nat.not_lt_zero y)
    · rfl
  | succ m ih =>
    rw [subtreeLoop_snoc]
    exact leafStep_inv ops _ (start + m) m ih.1 ih.2

/-- Strictly descending stacks have entry `x` at level at least
`k - 1 - x`. -/
theorem StrictDesc_chain {lv : Nat → Nat} {k : Nat} (h : StrictDesc lv k) :
    ∀ x, x < k → k - 1 - x ≤ lv x := by
  have aux : ∀ d x, x + d < k → lv (x + d) + d ≤ lv x := by
    intro d
    induction d with
    | zero => intro x _; simp
    | succ d ihd =>
      intro x hx
      have h1 : lv (x + 1 + d) + d ≤ lv (x + 1) := ihd (x + 1) (by omega)
      have h2 : lv (x + 1) < lv x := h x (x + 1) (by omega) (by omega)
      have h3 : x + 1 + d = x + (d + 1) := by omega
      rw [h3] at h1
      omega
  intro x hx
  have := aux (k - 1 - x) x (by omega)
  omega

theorem sum_two_pow (k : Nat) :
    Finset.sum (Finset.range k) (fun x => 2 ^ x) = 2 ^ k - 1 := by
  induction k with
  | zero => simp
  | succ k ih =>
    rw [Finset.sum_range_succ, ih, pow_succ]
    have : 1 ≤ 2 ^ k := Nat.one_le_two_pow
    omega

/-- A strictly descending stack of height `k` accounts for at least
`2^k - 1` leaves. -/
theorem StrictDesc_weight_lower {lv : Nat → Nat} {k : Nat}
    (h : StrictDesc lv k) : 2 ^ k - 1 ≤ stackWeight lv k := by
  have hpt := StrictDesc_chain h
  calc 2 ^ k - 1 = Finset.sum (Finset.range k) (fun x => 2 ^ x) :=
        (sum_two_pow k).symm
    _ = Finset.sum (Finset.range k) (fun x => 2 ^ (k - 1 - x)) :=
        (Finset.sum_range_reflect _ _).symm
    _ ≤ stackWeight lv k := by
        apply Finset.sum_le_sum
        intro x hx
        exact Nat.pow_le_pow_of_le (by norm_num)
          (hpt x (Finset.mem_range.mp hx))

end BotanXMSS

namespace BotanXMSS

/-! ## Claim C7 -/

/-- C7: during a `tree_hash_subtree` run with parameter `t`, at the
start of each leaf iteration (after `m < 2^t` of the `2^t` iterations)
the stack level is at most `t` — the iteration writes `nodes[level]` and
`node_levels[level]` at that index and the combine cascade only moves
down from it, so every access into the arrays of size `t + 1` is in
bounds; after any number `m ≤ 2^t` of iterations the level variable is
at most `t + 1`; the cascade pops and combines the top two entries
exactly while their stack levels are equal (this is `combineLoop` by
construction); and for `t = 0` the run returns the single leaf node
directly with no combination. -/
theorem xmss_subtree_stack_bound :
    ∀ (Node : Type) (ops : XMSS_Ops Node) (start t : Nat)
      (adrs : XMSS_Address),
      (∀ m, m < 2 ^ t →
        (subtreeLoop ops (initState ops adrs) start m).level ≤ t) ∧
      (∀ m, m ≤ 2 ^ t →
        (subtreeLoop ops (initState ops adrs) start m).level ≤ t + 1) ∧
      tree_hash_subtree ops start 0 adrs = leafVal ops adrs start := by
  intro Node ops start t adrs
  have key : ∀ m,
      2 ^ (subtreeLoop ops (initState ops adrs) start m).level - 1 ≤ m := by
    intro m
    obtain ⟨hsd, hwt⟩ := subtree_run_stack ops adrs start m
    calc 2 ^ (subtreeLoop ops (initState ops adrs) start m).level - 1 ≤
        stackWeight (subtreeLoop ops (initState ops adrs) start m).node_levels
          (subtreeLoop ops (initState ops adrs) start m).level :=
        StrictDesc_weight_lower hsd
      _ = m := hwt
  refine ⟨?_, ?_, ?_⟩
  · intro m hm
    have h1 := key m
    have h2 : 2 ^ (subtreeLoop ops (initState ops adrs) start m).level ≤
        2 ^ t := by omega
    exact (Nat.pow_le_pow_iff_right (by norm_num : (1:Nat) < 2)).mp h2
  · intro m hm
    have h1 := key m
    have hb1 : (1 : Nat) ≤ 2 ^ t := Nat.one_le_two_pow
    have h2 : 2 ^ (subtreeLoop ops (initState ops adrs) start m).level ≤
        2 ^ (t + 1) := by
      rw [pow_succ]
      omega
    exact (Nat.pow_le_pow_iff_right (by norm_num : (1:Nat) < 2)).mp h2
  · exact (tree_hash_subtree_correct ops start 0 adrs).1

/-- Witness for C7 at height 2: after 3 of the 4 iterations the level is
at most 2; after all 4 it is at most 3; a height-0 run returns the leaf. -/
theorem xmss_subtree_stack_bound_witness :
    ((subtreeLoop opsDemo (initState opsDemo adrsDemo) 0 3).level ≤ 2) ∧
    ((subtreeLoop opsDemo (initState opsDemo adrsDemo) 0 4).level ≤ 3) ∧
    tree_hash_subtree opsDemo 0 0 adrsDemo = leafVal opsDemo adrsDemo 0 :=
  ⟨(xmss_subtree_stack_bound Nat opsDemo 0 2 adrsDemo).1 3 (by norm_num),
   (xmss_subtree_stack_bound Nat opsDemo 0 2 adrsDemo).2.1 4 (by norm_num),
   (xmss_subtree_stack_bound Nat opsDemo 0 2 adrsDemo).2.2⟩

end BotanXMSS
